import Mathlib

/-!
Verification of the stream-reconciliation engine of the `60days-rag` chat
client.  The definitions below are a shallow embedding of:

* the Zustand chat store (`addMessage`, `updateLastMessage`, `clearMessages`
  from the chat-store module), and
* the per-turn reconciliation loop of `handleSend` in
  `src/client/app/page.tsx` (thinking segmentation, content accumulation,
  finish / error handling, and the `finally` finalization).

Store writes made by the loop are recorded as an explicit ordered list of
`MsgUpdate` values (the arguments of the successive `updateLastMessage`
calls), so that claims about intermediate store states can be stated by
folding or scanning the store operation over that trace.
-/

namespace RagChat

/-- Message role, from the `ChatMessage` type (`"user" | "assistant"`). -/
inductive Role where
  | user
  | assistant
deriving DecidableEq

/-- A chat message record.  The source's optional `thinking?: string` field is
modelled as a `String` that is `""` when absent (the user message omits it and
the assistant placeholder sets it to `""`; no claim distinguishes the two). -/
structure Message where
  id : String
  role : Role
  content : String
  thinking : String
  timestamp : Nat
deriving DecidableEq

/-- A `Partial<ChatMessage>` argument of `updateLastMessage`: every field
optional, `none` meaning "not present in the update object". -/
structure MsgUpdate where
  id : Option String := none
  role : Option Role := none
  content : Option String := none
  thinking : Option String := none
  timestamp : Option Nat := none
deriving DecidableEq

/-- Object spread `{ ...m, ...u }`: fields present in `u` win. -/
def mergeMsg (m : Message) (u : MsgUpdate) : Message :=
  { id := u.id.getD m.id
    role := u.role.getD m.role
    content := u.content.getD m.content
    thinking := u.thinking.getD m.thinking
    timestamp := u.timestamp.getD m.timestamp }

/-- `addMessage` of the chat store: append at the end. -/
def addMessage (ms : List Message) (m : Message) : List Message :=
  ms ++ [m]

/-- `updateLastMessage` of the chat store: copy the list and, when
`lastIndex >= 0`, replace the last element by the merge; on an empty list the
guard fails and the list is returned unchanged (the source has no throw or
assertion on this path). -/
def updateLastMessage (ms : List Message) (u : MsgUpdate) : List Message :=
  match ms.getLast? with
  | none => ms
  | some m => ms.dropLast ++ [mergeMsg m u]

/-- `clearMessages` of the chat store: the messages list becomes `[]`. -/
def clearMessages : List Message := []

/-- The sentence-terminal characters of the segmentation regex
`/[^.!?]+[.!?]+/g`. -/
def isTerm (c : Char) : Bool :=
  c = '.' || c = '!' || c = '?'

/-- One left-to-right pass of the regex `/[^.!?]+[.!?]+/g` over the remaining
characters, given the partial match `acc` built so far.  `inPunct = false`
means we are inside the `[^.!?]+` part (so `acc` is a nonempty run of
non-terminal characters), `inPunct = true` means we are inside the `[.!?]+`
part (so `acc` already ends with at least one terminal character and is a
completable match).  A partial match that reaches the end of input without a
terminal character is discarded, exactly as the regex engine does. -/
def scanSeg (inPunct : Bool) (acc : List Char) : List Char → List (List Char)
  | [] => if inPunct then [acc] else []
  | c :: cs =>
    if inPunct then
      if isTerm c then scanSeg true (acc ++ [c]) cs
      else acc :: scanSeg false [c] cs
    else
      if isTerm c then scanSeg true (acc ++ [c]) cs
      else scanSeg false (acc ++ [c]) cs

/-- Start of the regex scan: a match can only begin at a non-terminal
character, so a leading run of terminal characters is skipped. -/
def scanStart : List Char → List (List Char)
  | [] => []
  | c :: cs => if isTerm c then scanStart cs else scanSeg false [c] cs

/-- `fullThinking.match(/[^.!?]+[.!?]+/g) || [fullThinking]`: the list of
regex matches, or the single-element list `[t]` when there is no match. -/
def sentences (t : String) : List String :=
  if (scanStart t.data).map (fun cs => String.mk cs) = [] then [t]
  else (scanStart t.data).map (fun cs => String.mk cs)

/-- Successive values of `currentText` in the segment loop: the cumulative
concatenations of the segments, starting from `a`. -/
def cumWrites (a : String) : List String → List String
  | [] => []
  | s :: ss => (a ++ s) :: cumWrites (a ++ s) ss

/-- The values written to the `thinking` field by the segment loop for one
thinking event of text `t`. -/
def thinkingWrites (t : String) : List String :=
  cumWrites "" (sentences t)

/-- All values written to the `thinking` field while processing one thinking
event of text `t`: the segment-loop writes followed by the final guard write
of the full original text. -/
def allThinkingWrites (t : String) : List String :=
  thinkingWrites t ++ [t]

/-- A classified stream event, as consumed by the `handleSend` loop. -/
inductive Chunk where
  | thinking (text : String)
  | content (text : String)
  | finish
  | error (message : String)
deriving DecidableEq

/-- The engine-private per-turn state of `handleSend`: the two local
accumulators, the two channel-activity flags, the error sink, whether the
loop has exited via `break` (`finished`), and the `isStreaming` flag. -/
structure AccState where
  accThinking : String
  accContent : String
  thinkingActive : Bool
  contentActive : Bool
  errorMsg : Option String
  finished : Bool
  streaming : Bool
deriving DecidableEq

/-- `updateLastMessage({ thinking: t })`. -/
def thinkUpd (t : String) : MsgUpdate := { thinking := some t }

/-- `updateLastMessage({ content: c })`. -/
def contentUpd (c : String) : MsgUpdate := { content := some c }

/-- `updateLastMessage({ content: c, thinking: t })` (the finish write). -/
def finishUpd (c t : String) : MsgUpdate :=
  { content := some c, thinking := some t }

/-- Process one chunk of the `handleSend` loop body, returning the new
per-turn state together with the ordered list of `updateLastMessage` calls
this chunk performs.  A chunk arriving after the loop has exited via `break`
does nothing.  Guards follow the source exactly: the thinking branch fires
only when `chunk.thinking_content` is truthy (nonempty), the content branch
only when `chunk.chunk` is truthy (nonempty), and an empty error message
falls back to `"Unknown error"` via `chunk.chunk || "Unknown error"`. -/
def processChunk (s : AccState) : Chunk → AccState × List MsgUpdate
  | .thinking t =>
    if s.finished then (s, [])
    else if t = "" then (s, [])
    else ({ s with thinkingActive := true, accThinking := t },
          (thinkingWrites t).map thinkUpd ++ [thinkUpd t])
  | .content c =>
    if s.finished then (s, [])
    else if c = "" then (s, [])
    else ({ s with
              thinkingActive := false
              contentActive := true
              accContent := s.accContent ++ c },
          [contentUpd (s.accContent ++ c)])
  | .finish =>
    if s.finished then (s, [])
    else ({ s with
              thinkingActive := false
              contentActive := false
              finished := true },
          [finishUpd s.accContent s.accThinking])
  | .error m =>
    if s.finished then (s, [])
    else ({ s with
              errorMsg := some (if m = "" then "Unknown error" else m)
              finished := true }, [])

/-- Run the loop over a list of chunks, threading the state and
concatenating the write traces in order. -/
def runChunks (s : AccState) : List Chunk → AccState × List MsgUpdate
  | [] => (s, [])
  | c :: cs =>
    let p := processChunk s c
    let q := runChunks p.1 cs
    (q.1, p.2 ++ q.2)

/-- The `finally` block of `handleSend`: `setStreaming(false)`,
`setIsThinkingStreaming(false)`, `setIsContentStreaming(false)`. -/
def finalizeAcc (s : AccState) : AccState :=
  { s with streaming := false, thinkingActive := false, contentActive := false }

/-- Per-turn state right after the setup of `handleSend` (`setStreaming(true)`,
`setError(null)`, both channel flags reset, both accumulators empty). -/
def initAcc : AccState :=
  { accThinking := ""
    accContent := ""
    thinkingActive := false
    contentActive := false
    errorMsg := none
    finished := false
    streaming := true }

/-- The user message appended at turn start (`content` is the submitted
text; the source object has no `thinking` field, modelled as `""`). -/
def userMsg (uid u : String) (ts : Nat) : Message :=
  { id := uid, role := .user, content := u, thinking := "", timestamp := ts }

/-- The assistant placeholder appended immediately afterwards, with
`content: ""` and `thinking: ""`. -/
def assistantPlaceholder (aid : String) (ts : Nat) : Message :=
  { id := aid, role := .assistant, content := "", thinking := "", timestamp := ts }

/-- Turn start: append the user message, then the assistant placeholder.
These are the only store mutations before the stream is opened. -/
def startTurn (ms : List Message) (u uid aid : String) (ts1 ts2 : Nat) :
    List Message :=
  addMessage (addMessage ms (userMsg uid u ts1)) (assistantPlaceholder aid ts2)

/-- The ordered trace of `updateLastMessage` calls made by a turn that
processes the chunks `es`. -/
def turnUpdates (es : List Chunk) : List MsgUpdate :=
  (runChunks initAcc es).2

/-- The per-turn state at the end of the turn (after the `finally` block). -/
def turnAcc (es : List Chunk) : AccState :=
  finalizeAcc (runChunks initAcc es).1

/-- The message store at the end of the turn. -/
def turnStore (ms : List Message) (u uid aid : String) (ts1 ts2 : Nat)
    (es : List Chunk) : List Message :=
  List.foldl updateLastMessage (startTurn ms u uid aid ts1 ts2) (turnUpdates es)

/-- All intermediate store states of the turn, one per write (plus the
initial state). -/
def turnStates (ms : List Message) (u uid aid : String) (ts1 ts2 : Nat)
    (es : List Chunk) : List (List Message) :=
  List.scanl updateLastMessage (startTurn ms u uid aid ts1 ts2) (turnUpdates es)

/-- The `content` field of the last message of a store (`""` if empty). -/
def lastContent (ms : List Message) : String :=
  ((ms.getLast?).map Message.content).getD ""

/-- The `thinking` field of the last message of a store (`""` if empty). -/
def lastThinking (ms : List Message) : String :=
  ((ms.getLast?).map Message.thinking).getD ""

/-- The successive values of the last message's `thinking` field over the
turn's store states. -/
def thinkingSeq (ms : List Message) (u uid aid : String) (ts1 ts2 : Nat)
    (es : List Chunk) : List String :=
  (turnStates ms u uid aid ts1 ts2 es).map lastThinking

/-- The successive values of the last message's `content` field over the
turn's store states. -/
def contentSeq (ms : List Message) (u uid aid : String) (ts1 ts2 : Nat)
    (es : List Chunk) : List String :=
  (turnStates ms u uid aid ts1 ts2 es).map lastContent

/-- String `a` is a prefix of string `b`. -/
def isPre (a b : String) : Prop := ∃ r, b = a ++ r

/-- `t` does not begin with a sentence-terminal character. -/
def noLeadTerm (t : String) : Bool :=
  match t.data with
  | [] => true
  | c :: _ => !isTerm c

/-- Events that neither finish nor abort the turn. -/
def nonTerminal : Chunk → Bool
  | .thinking _ => true
  | .content _ => true
  | _ => false

/-- Recognizer for thinking events. -/
def isThinkingChunk : Chunk → Bool
  | .thinking _ => true
  | _ => false

/-- Concatenation of a list of strings, in order. -/
def strConcat : List String → String
  | [] => ""
  | s :: ss => s ++ strConcat ss

/-- The per-write evolution of the `content` field under one update. -/
def cStep (v : String) (u : MsgUpdate) : String := u.content.getD v

/-- The per-write evolution of the `thinking` field under one update. -/
def tStep (v : String) (u : MsgUpdate) : String := u.thinking.getD v

theorem data_append (a b : String) : (a ++ b).data = a.data ++ b.data := rfl

theorem str_ext {a b : String} (h : a.data = b.data) : a = b := by
  cases a
  cases b
  cases h
  rfl

theorem str_length_data (a : String) : a.length = a.data.length := rfl

theorem empty_append_str (a : String) : "" ++ a = a := rfl

theorem append_empty_str (a : String) : a ++ "" = a := by
  cases a
  show String.mk _ = _
  simp

theorem str_append_assoc (a b c : String) : a ++ b ++ c = a ++ (b ++ c) := by
  cases a
  cases b
  cases c
  show String.mk _ = String.mk _
  simp

theorem str_length_append (a b : String) :
    (a ++ b).length = a.length + b.length := by
  rw [str_length_data, str_length_data, str_length_data, data_append,
    List.length_append]

theorem mk_ne_empty {cs : List Char} (h : cs ≠ []) : String.mk cs ≠ "" := by
  intro he
  exact h (congrArg String.data he)

theorem isPre_refl (a : String) : isPre a a :=
  ⟨"", (append_empty_str a).symm⟩

theorem isPre_trans : Transitive isPre := by
  rintro a b c ⟨r1, h1⟩ ⟨r2, h2⟩
  exact ⟨r1 ++ r2, by rw [h2, h1, str_append_assoc]⟩

theorem isPre_append (a r : String) : isPre a (a ++ r) := ⟨r, rfl⟩

theorem isPre_len_le {a b : String} (h : isPre a b) : a.length ≤ b.length := by
  obtain ⟨r, hr⟩ := h
  rw [hr, str_length_append]
  exact Nat.le_add_right _ _

theorem isPre_len_lt {a b : String} (h : ∃ r, r ≠ "" ∧ b = a ++ r) :
    a.length < b.length := by
  obtain ⟨r, hr, he⟩ := h
  rw [he, str_length_append]
  have : 0 < r.length := by
    rw [str_length_data]
    cases hd : r.data with
    | nil => exact absurd (by cases r; cases hd; rfl) hr
    | cons c cs => simp
  omega

/-- Every partial match emitted by the scanner is nonempty (given a nonempty
partial accumulator, which the scanner maintains). -/
theorem scanSeg_ne_nil :
    ∀ (cs : List Char) (b : Bool) (acc : List Char), acc ≠ [] →
      ∀ m ∈ scanSeg b acc cs, m ≠ [] := by
  intro cs
  induction cs with
  | nil =>
    intro b acc hacc m hm
    cases b with
    | false => simp [scanSeg] at hm
    | true =>
      simp [scanSeg] at hm
      rw [hm]
      exact hacc
  | cons c cs ih =>
    intro b acc hacc m hm
    cases b with
    | false =>
      by_cases ht : isTerm c
      · simp [scanSeg, ht] at hm
        exact ih true (acc ++ [c]) (by simp) m hm
      · simp [scanSeg, ht] at hm
        exact ih false (acc ++ [c]) (by simp) m hm
    | true =>
      by_cases ht : isTerm c
      · simp [scanSeg, ht] at hm
        exact ih true (acc ++ [c]) (by simp) m hm
      · simp [scanSeg, ht] at hm
        rcases hm with hm | hm
        · rw [hm]; exact hacc
        · exact ih false [c] (by simp) m hm

theorem scanStart_ne_nil :
    ∀ (cs : List Char), ∀ m ∈ scanStart cs, m ≠ [] := by
  intro cs
  induction cs with
  | nil => intro m hm; simp [scanStart] at hm
  | cons c cs ih =>
    intro m hm
    by_cases ht : isTerm c
    · simp [scanStart, ht] at hm
      exact ih m hm
    · simp [scanStart, ht] at hm
      exact scanSeg_ne_nil cs false [c] (by simp) m hm

/-- The concatenation of the matches produced by the scanner, prefixed by the
current partial match, is a prefix of `acc ++ cs`. -/
theorem scanSeg_join :
    ∀ (cs : List Char) (b : Bool) (acc : List Char),
      ∃ rest, acc ++ cs = (scanSeg b acc cs).flatten ++ rest := by
  intro cs
  induction cs with
  | nil =>
    intro b acc
    cases b with
    | false => exact ⟨acc, by simp [scanSeg]⟩
    | true => exact ⟨[], by simp [scanSeg]⟩
  | cons c cs ih =>
    intro b acc
    cases b with
    | false =>
      by_cases ht : isTerm c
      · obtain ⟨rest, hr⟩ := ih true (acc ++ [c])
        exact ⟨rest, by simpa [scanSeg, ht] using hr⟩
      · obtain ⟨rest, hr⟩ := ih false (acc ++ [c])
        exact ⟨rest, by simpa [scanSeg, ht] using hr⟩
    | true =>
      by_cases ht : isTerm c
      · obtain ⟨rest, hr⟩ := ih true (acc ++ [c])
        exact ⟨rest, by simpa [scanSeg, ht] using hr⟩
      · obtain ⟨rest, hr⟩ := ih false [c]
        refine ⟨rest, ?_⟩
        simp only [scanSeg, ht, if_false, List.flatten, List.append_assoc]
        simpa using hr

/-- When the text does not begin with a terminal character, the concatenation
of all matches is a prefix of the text. -/
theorem scanStart_join {cs : List Char}
    (h : ∀ c ∈ cs.head?, isTerm c = false) :
    ∃ rest, cs = (scanStart cs).flatten ++ rest := by
  cases cs with
  | nil => exact ⟨[], rfl⟩
  | cons c cs =>
    have ht : isTerm c = false := h c rfl
    obtain ⟨rest, hr⟩ := scanSeg_join cs false [c]
    refine ⟨rest, ?_⟩
    simp only [scanStart, ht, if_false]
    simpa using hr

/-- Without any terminal character, the scanner emits no match. -/
theorem scanSeg_no_term :
    ∀ (cs : List Char) (acc : List Char), (∀ c ∈ cs, isTerm c = false) →
      scanSeg false acc cs = [] := by
  intro cs
  induction cs with
  | nil => intro acc _; simp [scanSeg]
  | cons c cs ih =>
    intro acc h
    have hc : isTerm c = false := h c (by simp)
    simp only [scanSeg, hc, if_false, Bool.false_eq_true]
    exact ih (acc ++ [c]) (fun x hx => h x (by simp [hx]))

theorem strConcat_map_mk (l : List (List Char)) :
    strConcat (l.map (fun cs => String.mk cs)) = String.mk l.flatten := by
  induction l with
  | nil => rfl
  | cons x xs ih =>
    simp only [List.map_cons, strConcat, List.flatten, ih]
    rfl

/-- Every sentence of a nonempty text is nonempty. -/
theorem sentences_ne_empty {t : String} (ht : t ≠ "") :
    ∀ s ∈ sentences t, s ≠ "" := by
  intro s hs
  unfold sentences at hs
  by_cases hm : (scanStart t.data).map (fun cs => String.mk cs) = []
  · simp only [hm, if_pos rfl] at hs
    simp at hs
    rw [hs]; exact ht
  · simp only [hm, if_neg hm] at hs
    simp at hs
    obtain ⟨m, hmem, hmk⟩ := hs
    rw [← hmk]
    exact mk_ne_empty (scanStart_ne_nil t.data m hmem)

/-- When the text does not begin with a terminal character, the concatenation
of its sentences is a prefix of the text. -/
theorem sentences_concat_isPre {t : String} (h : noLeadTerm t = true) :
    isPre (strConcat (sentences t)) t := by
  unfold sentences
  by_cases hm : (scanStart t.data).map (fun cs => String.mk cs) = []
  · simp only [hm, if_pos rfl]
    show isPre (t ++ strConcat []) t
    rw [show strConcat [] = "" from rfl, append_empty_str]
    exact isPre_refl t
  · rw [if_neg hm, strConcat_map_mk]
    have hh : ∀ c ∈ t.data.head?, isTerm c = false := by
      intro c hc
      unfold noLeadTerm at h
      cases hd : t.data with
      | nil => rw [hd] at hc; simp at hc
      | cons x xs =>
        rw [hd] at hc
        simp at hc
        rw [hd] at h
        simp at h
        subst hc
        exact h
    obtain ⟨rest, hr⟩ := scanStart_join hh
    refine ⟨String.mk rest, str_ext ?_⟩
    rw [data_append]
    exact hr

theorem cumWrites_chain (ss : List String) :
    ∀ a, List.Chain' isPre (a :: cumWrites a ss) := by
  induction ss with
  | nil => intro a; simp [cumWrites]
  | cons s ss ih =>
    intro a
    rw [cumWrites]
    exact List.chain'_cons.2 ⟨isPre_append a s, ih (a ++ s)⟩

theorem cumWrites_getLast (ss : List String) :
    ∀ a, (a :: cumWrites a ss).getLast? = some (a ++ strConcat ss) := by
  induction ss with
  | nil =>
    intro a
    simp [cumWrites, strConcat, append_empty_str]
  | cons s ss ih =>
    intro a
    rw [cumWrites, List.getLast?_cons_cons, ih (a ++ s), strConcat,
      str_append_assoc]

theorem cumWrites_chain_strict (ss : List String) (hs : ∀ s ∈ ss, s ≠ "") :
    ∀ a, List.Chain' (fun x y => x.length < y.length) (cumWrites a ss) := by
  induction ss with
  | nil => intro a; simp [cumWrites]
  | cons s ss ih =>
    intro a
    rw [cumWrites]
    rw [List.chain'_cons']
    refine ⟨?_, ih (fun x hx => hs x (by simp [hx])) (a ++ s)⟩
    intro y hy
    cases ss with
    | nil => simp [cumWrites] at hy
    | cons s2 ss2 =>
      rw [cumWrites] at hy
      simp at hy
      rw [← hy]
      exact isPre_len_lt ⟨s2, hs s2 (by simp), rfl⟩

theorem chain'_rel_getLastD {α : Type} {r : α → α → Prop}
    (hrefl : ∀ x, r x x) (htrans : Transitive r) :
    ∀ (l : List α) (d : α), List.Chain' r l → ∀ v ∈ l, r v (l.getLast?.getD d) := by
  intro l
  induction l with
  | nil =>
    intro d _ v hv
    simp at hv
  | cons x xs ih =>
    intro d hcl v hv
    cases xs with
    | nil =>
      simp at hv
      subst hv
      simp [hrefl]
    | cons y ys =>
      rw [List.chain'_cons] at hcl
      rw [List.getLast?_cons_cons]
      rcases List.mem_cons.1 hv with hv | hv
      · subst hv
        exact htrans hcl.1 (ih d hcl.2 y (by simp))
      · exact ih d hcl.2 v hv

theorem chain'_replicate_of_refl {α : Type} {r : α → α → Prop} {v : α}
    (h : r v v) : ∀ n, List.Chain' r (List.replicate n v) := by
  intro n
  induction n with
  | zero => simp
  | succ k ih =>
    cases k with
    | zero => simp
    | succ m =>
      rw [List.replicate_succ, List.chain'_cons']
      refine ⟨?_, ih⟩
      intro y hy
      rw [List.replicate_succ] at hy
      simp at hy
      subst hy
      exact h

theorem scanl_fixed {α β : Type} (f : α → β → α) (v : α) :
    ∀ us : List β, (∀ u ∈ us, f v u = v) →
      List.scanl f v us = List.replicate (us.length + 1) v := by
  intro us
  induction us with
  | nil => intro _; simp [List.scanl]
  | cons u us ih =>
    intro h
    rw [List.scanl_cons, h u (by simp), ih (fun x hx => h x (by simp [hx]))]
    simp [List.replicate_succ]

theorem foldl_fixed {α β : Type} (f : α → β → α) (v : α) :
    ∀ us : List β, (∀ u ∈ us, f v u = v) → List.foldl f v us = v := by
  intro us
  induction us with
  | nil => intro _; rfl
  | cons u us ih =>
    intro h
    rw [List.foldl_cons, h u (by simp)]
    exact ih (fun x hx => h x (by simp [hx]))

theorem scanl_head? {α β : Type} (f : α → β → α) (a : α) (l : List β) :
    (List.scanl f a l).head? = some a := by
  cases l <;> simp [List.scanl]

theorem chain'_scanl_append {α β : Type} (r : α → α → Prop) (f : α → β → α) :
    ∀ (l1 : List β) (a : α) (l2 : List β),
      List.Chain' r (List.scanl f a l1) →
      List.Chain' r (List.scanl f (List.foldl f a l1) l2) →
      List.Chain' r (List.scanl f a (l1 ++ l2)) := by
  intro l1
  induction l1 with
  | nil =>
    intro a l2 _ h2
    simpa using h2
  | cons x xs ih =>
    intro a l2 h1 h2
    rw [List.scanl_cons] at h1
    rw [List.cons_append, List.scanl_cons]
    rw [List.singleton_append, List.chain'_cons'] at h1 ⊢
    refine ⟨?_, ih (f a x) l2 h1.2 (by simpa using h2)⟩
    intro y hy
    rw [scanl_head? f (f a x) (xs ++ l2)] at hy
    have := h1.1 (f a x) (by rw [scanl_head?]; exact rfl)
    simp at hy
    subst hy
    exact this

theorem updateLastMessage_ne_nil {ms : List Message} (h : ms ≠ [])
    (u : MsgUpdate) : updateLastMessage ms u ≠ [] := by
  unfold updateLastMessage
  cases hg : ms.getLast? with
  | none => exact h
  | some m => simp

theorem lastContent_update {ms : List Message} (h : ms ≠ []) (u : MsgUpdate) :
    lastContent (updateLastMessage ms u) = cStep (lastContent ms) u := by
  unfold updateLastMessage
  cases hg : ms.getLast? with
  | none =>
    exact absurd (List.getLast?_eq_none_iff.1 hg) h
  | some m =>
    simp [lastContent, List.getLast?_concat, mergeMsg, cStep, hg]

theorem lastThinking_update {ms : List Message} (h : ms ≠ []) (u : MsgUpdate) :
    lastThinking (updateLastMessage ms u) = tStep (lastThinking ms) u := by
  unfold updateLastMessage
  cases hg : ms.getLast? with
  | none =>
    exact absurd (List.getLast?_eq_none_iff.1 hg) h
  | some m =>
    simp [lastThinking, List.getLast?_concat, mergeMsg, tStep, hg]

theorem foldl_updateLast_ne_nil :
    ∀ (us : List MsgUpdate) (ms : List Message), ms ≠ [] →
      List.foldl updateLastMessage ms us ≠ [] := by
  intro us
  induction us with
  | nil => intro ms h; exact h
  | cons u us ih =>
    intro ms h
    exact ih (updateLastMessage ms u) (updateLastMessage_ne_nil h u)

theorem map_lastContent_scanl :
    ∀ (us : List MsgUpdate) (ms : List Message), ms ≠ [] →
      (List.scanl updateLastMessage ms us).map lastContent
        = List.scanl cStep (lastContent ms) us := by
  intro us
  induction us with
  | nil => intro ms _; simp [List.scanl]
  | cons u us ih =>
    intro ms h
    rw [List.scanl_cons, List.scanl_cons]
    simp only [List.singleton_append, List.map_cons]
    rw [ih (updateLastMessage ms u) (updateLastMessage_ne_nil h u),
      lastContent_update h u]

theorem map_lastThinking_scanl :
    ∀ (us : List MsgUpdate) (ms : List Message), ms ≠ [] →
      (List.scanl updateLastMessage ms us).map lastThinking
        = List.scanl tStep (lastThinking ms) us := by
  intro us
  induction us with
  | nil => intro ms _; simp [List.scanl]
  | cons u us ih =>
    intro ms h
    rw [List.scanl_cons, List.scanl_cons]
    simp only [List.singleton_append, List.map_cons]
    rw [ih (updateLastMessage ms u) (updateLastMessage_ne_nil h u),
      lastThinking_update h u]

theorem lastContent_foldl :
    ∀ (us : List MsgUpdate) (ms : List Message), ms ≠ [] →
      lastContent (List.foldl updateLastMessage ms us)
        = List.foldl cStep (lastContent ms) us := by
  intro us
  induction us with
  | nil => intro ms _; rfl
  | cons u us ih =>
    intro ms h
    rw [List.foldl_cons, List.foldl_cons,
      ih (updateLastMessage ms u) (updateLastMessage_ne_nil h u),
      lastContent_update h u]

theorem lastThinking_foldl :
    ∀ (us : List MsgUpdate) (ms : List Message), ms ≠ [] →
      lastThinking (List.foldl updateLastMessage ms us)
        = List.foldl tStep (lastThinking ms) us := by
  intro us
  induction us with
  | nil => intro ms _; rfl
  | cons u us ih =>
    intro ms h
    rw [List.foldl_cons, List.foldl_cons,
      ih (updateLastMessage ms u) (updateLastMessage_ne_nil h u),
      lastThinking_update h u]

theorem startTurn_ne_nil (ms : List Message) (u uid aid : String)
    (ts1 ts2 : Nat) : startTurn ms u uid aid ts1 ts2 ≠ [] := by
  simp [startTurn, addMessage]

theorem lastContent_startTurn (ms : List Message) (u uid aid : String)
    (ts1 ts2 : Nat) : lastContent (startTurn ms u uid aid ts1 ts2) = "" := by
  simp [startTurn, addMessage, lastContent, List.getLast?_concat,
    assistantPlaceholder]

theorem lastThinking_startTurn (ms : List Message) (u uid aid : String)
    (ts1 ts2 : Nat) : lastThinking (startTurn ms u uid aid ts1 ts2) = "" := by
  simp [startTurn, addMessage, lastThinking, List.getLast?_concat,
    assistantPlaceholder]

theorem runChunks_append (l1 l2 : List Chunk) :
    ∀ s : AccState,
      runChunks s (l1 ++ l2)
        = ((runChunks (runChunks s l1).1 l2).1,
           (runChunks s l1).2 ++ (runChunks (runChunks s l1).1 l2).2) := by
  induction l1 with
  | nil => intro s; simp [runChunks]
  | cons c cs ih =>
    intro s
    simp only [List.cons_append, runChunks, List.append_eq]
    rw [ih (processChunk s c).1]
    simp [List.append_assoc]

theorem foldl_cStep_thinkUpds (ws : List String) :
    ∀ v, List.foldl cStep v (ws.map thinkUpd) = v := by
  induction ws with
  | nil => intro v; rfl
  | cons w ws ih =>
    intro v
    rw [List.map_cons, List.foldl_cons]
    exact ih v

theorem foldl_tStep_map_thinkUpd (ws : List String) :
    ∀ v, List.foldl tStep v (ws.map thinkUpd) = ws.getLast?.getD v := by
  induction ws with
  | nil => intro v; rfl
  | cons w ws ih =>
    intro v
    rw [List.map_cons, List.foldl_cons]
    have hs : tStep v (thinkUpd w) = w := rfl
    rw [hs, ih w]
    cases ws with
    | nil => rfl
    | cons w2 ws2 =>
      rw [List.getLast?_cons_cons]
      cases hg : (w2 :: ws2).getLast? with
      | none => exact absurd (List.getLast?_eq_none_iff.1 hg) (by simp)
      | some x => rfl

/-- After processing one chunk, folding the per-field step over the chunk's
writes starting from the old accumulator yields the new accumulator. -/
theorem foldl_steps_chunk (s : AccState) (c : Chunk) :
    List.foldl cStep s.accContent (processChunk s c).2
      = (processChunk s c).1.accContent
    ∧ List.foldl tStep s.accThinking (processChunk s c).2
      = (processChunk s c).1.accThinking := by
  cases c with
  | thinking t =>
    by_cases hf : s.finished
    · simp [processChunk, hf]
    · by_cases he : t = ""
      · simp [processChunk, hf, he]
      · have hp : processChunk s (Chunk.thinking t)
            = ({ s with thinkingActive := true, accThinking := t },
               ((thinkingWrites t) ++ [t]).map thinkUpd) := by
          simp [processChunk, hf, he]
        rw [hp]
        constructor
        · exact foldl_cStep_thinkUpds (thinkingWrites t ++ [t]) s.accContent
        · rw [foldl_tStep_map_thinkUpd]
          simp [List.getLast?_concat]
  | content c =>
    by_cases hf : s.finished
    · simp [processChunk, hf]
    · by_cases he : c = ""
      · simp [processChunk, hf, he]
      · simp [processChunk, hf, he, cStep, tStep, contentUpd]
  | finish =>
    by_cases hf : s.finished
    · simp [processChunk, hf]
    · simp [processChunk, hf, cStep, tStep, finishUpd]
  | error m =>
    by_cases hf : s.finished
    · simp [processChunk, hf]
    · simp [processChunk, hf]

/-- Folding the per-field steps over a whole run's writes yields the final
accumulators. -/
theorem foldl_steps_run :
    ∀ (es : List Chunk) (s : AccState),
      List.foldl cStep s.accContent (runChunks s es).2
        = (runChunks s es).1.accContent
      ∧ List.foldl tStep s.accThinking (runChunks s es).2
        = (runChunks s es).1.accThinking := by
  intro es
  induction es with
  | nil => intro s; exact ⟨rfl, rfl⟩
  | cons c cs ih =>
    intro s
    have hc := foldl_steps_chunk s c
    have hr := ih (processChunk s c).1
    constructor
    · show List.foldl cStep s.accContent
          ((processChunk s c).2 ++ (runChunks (processChunk s c).1 cs).2) = _
      rw [List.foldl_append, hc.1, hr.1]
      rfl
    · show List.foldl tStep s.accThinking
          ((processChunk s c).2 ++ (runChunks (processChunk s c).1 cs).2) = _
      rw [List.foldl_append, hc.2, hr.2]
      rfl

theorem scanl_tStep_map_thinkUpd (ws : List String) :
    ∀ v, List.scanl tStep v (ws.map thinkUpd) = v :: ws := by
  induction ws with
  | nil => intro v; simp [List.scanl]
  | cons w ws ih =>
    intro v
    rw [List.map_cons, List.scanl_cons]
    simp only [List.singleton_append]
    have hs : tStep v (thinkUpd w) = w := rfl
    rw [hs, ih w]

/-- The store writes of one thinking event, starting from an empty revealed
text, form a prefix chain when the text has no leading terminal character. -/
theorem chain_thinking_writes {t : String} (hn : noLeadTerm t = true) :
    List.Chain' isPre ("" :: (thinkingWrites t ++ [t])) := by
  have h1 : List.Chain' isPre ("" :: cumWrites "" (sentences t)) :=
    cumWrites_chain (sentences t) ""
  rw [show ("" : String) :: (thinkingWrites t ++ [t])
      = ("" :: thinkingWrites t) ++ [t] by simp]
  rw [List.chain'_append]
  refine ⟨h1, by simp, ?_⟩
  intro x hx y hy
  simp at hy
  subst hy
  rw [show ("" : String) :: thinkingWrites t
      = ("" : String) :: cumWrites "" (sentences t) from rfl,
    cumWrites_getLast] at hx
  simp at hx
  subst hx
  exact sentences_concat_isPre hn

/-- One chunk's writes leave the content value a prefix chain, starting from
the current content accumulator. -/
theorem chain_cStep_chunk (s : AccState) (c : Chunk) :
    List.Chain' isPre (List.scanl cStep s.accContent (processChunk s c).2) := by
  cases c with
  | thinking t =>
    by_cases hf : s.finished
    · simp [processChunk, hf, List.scanl]
    · by_cases he : t = ""
      · simp [processChunk, hf, he, List.scanl]
      · have hp : (processChunk s (Chunk.thinking t)).2
            = ((thinkingWrites t) ++ [t]).map thinkUpd := by
          simp [processChunk, hf, he]
        rw [hp]
        rw [scanl_fixed cStep s.accContent _ ?_]
        · exact chain'_replicate_of_refl (isPre_refl _) _
        · intro u hu
          rw [List.mem_map] at hu
          obtain ⟨x, _, hx⟩ := hu
          rw [← hx]
          rfl
  | content c2 =>
    by_cases hf : s.finished
    · simp [processChunk, hf, List.scanl]
    · by_cases he : c2 = ""
      · simp [processChunk, hf, he, List.scanl]
      · have hp : (processChunk s (Chunk.content c2)).2
            = [contentUpd (s.accContent ++ c2)] := by
          simp [processChunk, hf, he]
        rw [hp]
        show List.Chain' isPre [s.accContent, s.accContent ++ c2]
        exact List.chain'_pair.2 (isPre_append _ _)
  | finish =>
    by_cases hf : s.finished
    · simp [processChunk, hf, List.scanl]
    · have hp : (processChunk s Chunk.finish).2
          = [finishUpd s.accContent s.accThinking] := by
        simp [processChunk, hf]
      rw [hp]
      show List.Chain' isPre [s.accContent, s.accContent]
      exact List.chain'_pair.2 (isPre_refl _)
  | error m =>
    by_cases hf : s.finished <;> simp [processChunk, hf, List.scanl]

/-- The content value over the whole run's writes is a prefix chain. -/
theorem chain_cStep_run :
    ∀ (es : List Chunk) (s : AccState),
      List.Chain' isPre (List.scanl cStep s.accContent (runChunks s es).2) := by
  intro es
  induction es with
  | nil => intro s; simp [runChunks, List.scanl]
  | cons c cs ih =>
    intro s
    show List.Chain' isPre (List.scanl cStep s.accContent
      ((processChunk s c).2 ++ (runChunks (processChunk s c).1 cs).2))
    apply chain'_scanl_append
    · exact chain_cStep_chunk s c
    · rw [(foldl_steps_chunk s c).1]
      exact ih (processChunk s c).1

theorem accThinking_non_thinking (s : AccState) (c : Chunk)
    (h : isThinkingChunk c = false) :
    (processChunk s c).1.accThinking = s.accThinking := by
  cases c with
  | thinking t => simp [isThinkingChunk] at h
  | content c2 =>
    by_cases hf : s.finished
    · simp [processChunk, hf]
    · by_cases he : c2 = "" <;> simp [processChunk, hf, he]
  | finish =>
    by_cases hf : s.finished <;> simp [processChunk, hf]
  | error m =>
    by_cases hf : s.finished <;> simp [processChunk, hf]

/-- The thinking value over the whole run's writes is a prefix chain, for a
run containing at most one thinking event whose text has no leading terminal
character, started with an empty thinking accumulator. -/
theorem chain_tStep_run :
    ∀ (es : List Chunk) (s : AccState),
      (es.countP isThinkingChunk = 0 ∨ s.accThinking = "") →
      es.countP isThinkingChunk ≤ 1 →
      (∀ t, Chunk.thinking t ∈ es → noLeadTerm t = true) →
      List.Chain' isPre (List.scanl tStep s.accThinking (runChunks s es).2) := by
  intro es
  induction es with
  | nil => intro s _ _ _; simp [runChunks, List.scanl]
  | cons c cs ih =>
    intro s hz hle hnl
    show List.Chain' isPre (List.scanl tStep s.accThinking
      ((processChunk s c).2 ++ (runChunks (processChunk s c).1 cs).2))
    apply chain'_scanl_append
    · cases c with
      | thinking t =>
        by_cases hf : s.finished
        · simp [processChunk, hf, List.scanl]
        · by_cases he : t = ""
          · simp [processChunk, hf, he, List.scanl]
          · have hacc : s.accThinking = "" := by
              rcases hz with hz | hz
              · exfalso
                rw [List.countP_cons] at hz
                simp [isThinkingChunk] at hz
              · exact hz
            have hp : (processChunk s (Chunk.thinking t)).2
                = ((thinkingWrites t) ++ [t]).map thinkUpd := by
              simp [processChunk, hf, he]
            rw [hp, scanl_tStep_map_thinkUpd, hacc]
            exact chain_thinking_writes (hnl t (by simp))
      | content c2 =>
        by_cases hf : s.finished
        · simp [processChunk, hf, List.scanl]
        · by_cases he : c2 = ""
          · simp [processChunk, hf, he, List.scanl]
          · have hp : (processChunk s (Chunk.content c2)).2
                = [contentUpd (s.accContent ++ c2)] := by
              simp [processChunk, hf, he]
            rw [hp]
            show List.Chain' isPre [s.accThinking, s.accThinking]
            exact List.chain'_pair.2 (isPre_refl _)
      | finish =>
        by_cases hf : s.finished
        · simp [processChunk, hf, List.scanl]
        · have hp : (processChunk s Chunk.finish).2
              = [finishUpd s.accContent s.accThinking] := by
            simp [processChunk, hf]
          rw [hp]
          show List.Chain' isPre [s.accThinking, s.accThinking]
          exact List.chain'_pair.2 (isPre_refl _)
      | error m =>
        by_cases hf : s.finished <;> simp [processChunk, hf, List.scanl]
    · rw [(foldl_steps_chunk s c).2]
      have hcons : (c :: cs).countP isThinkingChunk
          = cs.countP isThinkingChunk + (if isThinkingChunk c then 1 else 0) :=
        List.countP_cons isThinkingChunk c cs
      cases hc : isThinkingChunk c with
      | true =>
        rw [hc, if_pos rfl] at hcons
        apply ih (processChunk s c).1
        · left
          omega
        · omega
        · intro t ht
          exact hnl t (by simp [ht])
      | false =>
        rw [hc, if_neg (by simp)] at hcons
        apply ih (processChunk s c).1
        · rcases hz with hz | hz
          · left
            omega
          · right
            rw [accThinking_non_thinking s c hc]
            exact hz
        · omega
        · intro t ht
          exact hnl t (by simp [ht])

theorem scanl_getLast? {α β : Type} (f : α → β → α) :
    ∀ (l : List β) (a : α),
      (List.scanl f a l).getLast? = some (List.foldl f a l) := by
  intro l
  induction l with
  | nil => intro a; simp [List.scanl]
  | cons x xs ih =>
    intro a
    rw [List.scanl_cons, List.foldl_cons]
    rw [List.singleton_append]
    cases hx : List.scanl f (f a x) xs with
    | nil =>
      exfalso
      have := scanl_head? f (f a x) xs
      rw [hx] at this
      simp at this
    | cons y ys =>
      rw [List.getLast?_cons_cons, ← hx, ih (f a x)]

theorem filterMap_thinking_thinkUpd :
    ∀ l : List String, (l.map thinkUpd).filterMap MsgUpdate.thinking = l := by
  intro l
  induction l with
  | nil => rfl
  | cons w ws ih =>
    simp [List.filterMap_cons, thinkUpd, ih]

theorem updateLast_self {ms : List Message} (h : ms ≠ []) :
    updateLastMessage ms (finishUpd (lastContent ms) (lastThinking ms)) = ms := by
  cases hg : ms.getLast? with
  | none => exact absurd (List.getLast?_eq_none_iff.1 hg) h
  | some m =>
    have hc : lastContent ms = m.content := by simp [lastContent, hg]
    have ht : lastThinking ms = m.thinking := by simp [lastThinking, hg]
    rw [hc, ht]
    show updateLastMessage ms (finishUpd m.content m.thinking) = ms
    unfold updateLastMessage
    rw [hg]
    show ms.dropLast ++ [mergeMsg m (finishUpd m.content m.thinking)] = ms
    rw [show mergeMsg m (finishUpd m.content m.thinking) = m from rfl]
    exact List.dropLast_append_getLast? m (by rw [hg]; exact rfl)

theorem finished_processChunk_nonterminal (s : AccState) (e : Chunk)
    (h : nonTerminal e = true) :
    (processChunk s e).1.finished = s.finished := by
  cases e with
  | thinking t =>
    by_cases hf : s.finished
    · simp [processChunk, hf]
    · by_cases he : t = "" <;> simp [processChunk, hf, he]
  | content c =>
    by_cases hf : s.finished
    · simp [processChunk, hf]
    · by_cases he : c = "" <;> simp [processChunk, hf, he]
  | finish => simp [nonTerminal] at h
  | error m => simp [nonTerminal] at h

theorem errorMsg_processChunk_nonterminal (s : AccState) (e : Chunk)
    (h : nonTerminal e = true) :
    (processChunk s e).1.errorMsg = s.errorMsg := by
  cases e with
  | thinking t =>
    by_cases hf : s.finished
    · simp [processChunk, hf]
    · by_cases he : t = "" <;> simp [processChunk, hf, he]
  | content c =>
    by_cases hf : s.finished
    · simp [processChunk, hf]
    · by_cases he : c = "" <;> simp [processChunk, hf, he]
  | finish => simp [nonTerminal] at h
  | error m => simp [nonTerminal] at h

theorem run_nonterminal_not_finished :
    ∀ (es : List Chunk) (s : AccState), (∀ e ∈ es, nonTerminal e = true) →
      s.finished = false → (runChunks s es).1.finished = false := by
  intro es
  induction es with
  | nil => intro s _ hf; exact hf
  | cons c cs ih =>
    intro s h hf
    show (runChunks (processChunk s c).1 cs).1.finished = false
    apply ih (processChunk s c).1 (fun e he => h e (by simp [he]))
    rw [finished_processChunk_nonterminal s c (h c (by simp))]
    exact hf

theorem content_acc_run (fs : List String) :
    ∀ s : AccState, s.finished = false →
      (runChunks s (fs.map Chunk.content)).1.accContent
        = List.foldl (fun a b => a ++ b) s.accContent fs := by
  induction fs with
  | nil => intro s _; rfl
  | cons f fs ih =>
    intro s hf
    rw [List.map_cons, List.foldl_cons]
    show (runChunks (processChunk s (Chunk.content f)).1
      (fs.map Chunk.content)).1.accContent = _
    by_cases he : f = ""
    · have hp : processChunk s (Chunk.content f) = (s, []) := by
        simp [processChunk, hf, he]
      rw [hp, ih s hf, he, append_empty_str]
    · have hp : processChunk s (Chunk.content f)
          = ({ s with
                thinkingActive := false
                contentActive := true
                accContent := s.accContent ++ f },
             [contentUpd (s.accContent ++ f)]) := by
        simp [processChunk, hf, he]
      rw [hp]
      exact ih _ hf

/-- C6: once `clear()` has emptied the store mid-turn, every subsequent
`updateLastMessage` of that turn — for any remaining accumulator state and
any suffix of events still to be processed — leaves the store empty: every
intermediate store state after the clear is `[]`, so no write from the stale
turn ever reaches the store (and, the operation being total, no exception is
raised). -/
theorem claim_C6 (s : AccState) (es : List Chunk) :
    List.scanl updateLastMessage clearMessages (runChunks s es).2
      = List.replicate ((runChunks s es).2.length + 1) clearMessages :=
  scanl_fixed updateLastMessage clearMessages (runChunks s es).2
    (fun _ _ => rfl)

/-- C7 (amended): calling `updateLastMessage` on an empty store leaves the
store empty and completes silently as a total no-op; no logic error is
surfaced to the caller. -/
theorem claim_C7 (u : MsgUpdate) : updateLastMessage [] u = [] := rfl

/-- C7 counterexample: at the concrete update `{ thinking: "stale" }` on the
empty store, the call completes normally and returns the unchanged empty
store — it is not surfaced as a logic error and does not fail loudly, contrary
to the claim. -/
theorem claim_C7_cex : updateLastMessage [] (thinkUpd "stale") = [] := rfl

/-- C8 (amended): a nonempty backend error message is delivered to the error
sink verbatim (and the error event performs no store write); the empty
message, however, is replaced by `"Unknown error"` (see the counterexample). -/
theorem claim_C8 (s : AccState) (m : String) (hf : s.finished = false)
    (hm : m ≠ "") :
    (processChunk s (Chunk.error m)).1.errorMsg = some m
    ∧ (processChunk s (Chunk.error m)).2 = [] := by
  simp [processChunk, hf, hm]

theorem claim_C8_witness :
    (initAcc.finished = false ∧ ("boom" : String) ≠ "")
    ∧ ((processChunk initAcc (Chunk.error "boom")).1.errorMsg = some "boom"
       ∧ (processChunk initAcc (Chunk.error "boom")).2 = []) :=
  ⟨⟨rfl, by decide⟩, claim_C8 initAcc "boom" rfl (by decide)⟩

/-- C8 counterexample: the error event carrying the empty message delivers
`"Unknown error"` to the sink, not the carried text `""` — the
`chunk.chunk || "Unknown error"` fallback is not verbatim delivery. -/
theorem claim_C8_cex :
    (processChunk initAcc (Chunk.error "")).1.errorMsg = some "Unknown error"
    ∧ ("Unknown error" : String) ≠ "" := by
  constructor
  · rfl
  · decide

/-- C9: at turn start, exactly two messages are appended to the store before
any streaming: first the user message whose content is the submitted text,
then the assistant placeholder with empty content and empty thinking; no
other store mutation occurs. -/
theorem claim_C9 (ms : List Message) (u uid aid : String) (ts1 ts2 : Nat) :
    startTurn ms u uid aid ts1 ts2
      = ms ++ [{ id := uid, role := Role.user, content := u, thinking := "",
                 timestamp := ts1 },
               { id := aid, role := Role.assistant, content := "",
                 thinking := "", timestamp := ts2 }] := by
  simp [startTurn, addMessage, userMsg, assistantPlaceholder]

/-- C10: a thinking event carrying the empty string is ignored entirely: the
per-turn state is unchanged and no store write (hence no paced reveal) is
produced; inserting such an event anywhere in a turn leaves both the final
state and the whole write trace unchanged. -/
theorem claim_C10 (s : AccState) (es1 es2 : List Chunk) :
    processChunk s (Chunk.thinking "") = (s, [])
    ∧ runChunks s (es1 ++ Chunk.thinking "" :: es2) = runChunks s (es1 ++ es2) := by
  have hp : ∀ s1 : AccState, processChunk s1 (Chunk.thinking "") = (s1, []) := by
    intro s1
    by_cases hf : s1.finished <;> simp [processChunk, hf]
  refine ⟨hp s, ?_⟩
  have h1 : ∀ s1 : AccState,
      runChunks s1 (Chunk.thinking "" :: es2) = runChunks s1 es2 := by
    intro s1
    show (let p := processChunk s1 (Chunk.thinking "")
          let q := runChunks p.1 es2
          (q.1, p.2 ++ q.2)) = _
    rw [hp s1]
    simp
  rw [runChunks_append es1 (Chunk.thinking "" :: es2),
    runChunks_append es1 es2, h1]

/-- C2: for any sequence of content fragments processed in one turn, the
final value of the message's `content` field is exactly their concatenation
in order; a content event carrying the empty fragment is a complete no-op
(neither the accumulator nor the store changes). -/
theorem claim_C2 (ms : List Message) (u uid aid : String) (ts1 ts2 : Nat)
    (fs : List String) :
    lastContent (turnStore ms u uid aid ts1 ts2 (fs.map Chunk.content))
      = List.foldl (fun a b => a ++ b) "" fs
    ∧ (∀ s : AccState, processChunk s (Chunk.content "") = (s, [])) := by
  constructor
  · have h1 : lastContent (turnStore ms u uid aid ts1 ts2 (fs.map Chunk.content))
        = List.foldl cStep (lastContent (startTurn ms u uid aid ts1 ts2))
            (turnUpdates (fs.map Chunk.content)) :=
      lastContent_foldl (turnUpdates (fs.map Chunk.content))
        (startTurn ms u uid aid ts1 ts2) (startTurn_ne_nil ms u uid aid ts1 ts2)
    rw [h1, lastContent_startTurn]
    have h2 : List.foldl cStep "" (turnUpdates (fs.map Chunk.content))
        = (runChunks initAcc (fs.map Chunk.content)).1.accContent :=
      (foldl_steps_run (fs.map Chunk.content) initAcc).1
    rw [h2]
    have h3 : (runChunks initAcc (fs.map Chunk.content)).1.accContent
        = List.foldl (fun a b => a ++ b) "" fs :=
      content_acc_run fs initAcc rfl
    exact h3
  · intro s
    by_cases hf : s.finished <;> simp [processChunk, hf]

/-- C5: an error event arriving after any run of non-terminating events
leaves every already-written partial value in place (the error performs no
store write, so the final store is exactly the store before the error), the
error sink receives the carried message, and the turn finishes (`break`
taken, streaming off after the finalizer).  The concrete scenario
`[{content:"X"},{error:"boom"}]` is checked in the witness. -/
theorem claim_C5 (ms : List Message) (u uid aid : String) (ts1 ts2 : Nat)
    (es : List Chunk) (m : String)
    (h1 : ∀ e ∈ es, nonTerminal e = true) (h2 : m ≠ "") :
    turnStore ms u uid aid ts1 ts2 (es ++ [Chunk.error m])
      = turnStore ms u uid aid ts1 ts2 es
    ∧ (turnAcc (es ++ [Chunk.error m])).errorMsg = some m
    ∧ (turnAcc (es ++ [Chunk.error m])).finished = true
    ∧ (turnAcc (es ++ [Chunk.error m])).streaming = false := by
  have hfin : (runChunks initAcc es).1.finished = false :=
    run_nonterminal_not_finished es initAcc h1 rfl
  have hrun : runChunks initAcc (es ++ [Chunk.error m])
      = ((runChunks (runChunks initAcc es).1 [Chunk.error m]).1,
         (runChunks initAcc es).2
           ++ (runChunks (runChunks initAcc es).1 [Chunk.error m]).2) :=
    runChunks_append es [Chunk.error m] initAcc
  have herr : runChunks (runChunks initAcc es).1 [Chunk.error m]
      = ({ (runChunks initAcc es).1 with
             errorMsg := some m
             finished := true }, []) := by
    show (let p := processChunk (runChunks initAcc es).1 (Chunk.error m)
          let q := runChunks p.1 []
          (q.1, p.2 ++ q.2)) = _
    simp [processChunk, hfin, h2, runChunks]
  refine ⟨?_, ?_, ?_, ?_⟩
  · unfold turnStore turnUpdates
    rw [hrun, herr]
    simp
  · unfold turnAcc
    rw [hrun, herr]
    rfl
  · unfold turnAcc
    rw [hrun, herr]
    rfl
  · rfl

theorem claim_C5_witness :
    ((∀ e ∈ [Chunk.content "X"], nonTerminal e = true)
      ∧ ("boom" : String) ≠ "")
    ∧ (turnStore [] "q" "u" "a" 0 0 ([Chunk.content "X"] ++ [Chunk.error "boom"])
        = turnStore [] "q" "u" "a" 0 0 [Chunk.content "X"]
       ∧ (turnAcc ([Chunk.content "X"] ++ [Chunk.error "boom"])).errorMsg
          = some "boom"
       ∧ (turnAcc ([Chunk.content "X"] ++ [Chunk.error "boom"])).finished = true
       ∧ (turnAcc ([Chunk.content "X"] ++ [Chunk.error "boom"])).streaming = false)
    ∧ lastContent (turnStore [] "q" "u" "a" 0 0
        [Chunk.content "X", Chunk.error "boom"]) = "X"
    ∧ lastThinking (turnStore [] "q" "u" "a" 0 0
        [Chunk.content "X", Chunk.error "boom"]) = "" :=
  ⟨⟨by decide, by decide⟩,
   claim_C5 [] "q" "u" "a" 0 0 [Chunk.content "X"] "boom" (by decide) (by decide),
   by rfl, by rfl⟩

theorem accs_processChunk_finish (s : AccState) :
    (processChunk s Chunk.finish).1.accContent = s.accContent
    ∧ (processChunk s Chunk.finish).1.accThinking = s.accThinking := by
  by_cases hf : s.finished <;> simp [processChunk, hf]

/-- C4: exhausting the stream with no explicit finish event is equivalent,
for the store and the consumer-visible flags, to receiving a finish event
after the same events: the final store is identical (the finish write merely
rewrites the accumulators, which already equal the stored fields), the
accumulators are identical, streaming is off and neither channel flag
remains set on either path, and on both paths the stored message's content
and thinking equal the accumulators. -/
theorem claim_C4 (ms : List Message) (u uid aid : String) (ts1 ts2 : Nat)
    (es : List Chunk) :
    turnStore ms u uid aid ts1 ts2 (es ++ [Chunk.finish])
      = turnStore ms u uid aid ts1 ts2 es
    ∧ (turnAcc (es ++ [Chunk.finish])).accContent = (turnAcc es).accContent
    ∧ (turnAcc (es ++ [Chunk.finish])).accThinking = (turnAcc es).accThinking
    ∧ (turnAcc es).streaming = false
    ∧ (turnAcc es).thinkingActive = false
    ∧ (turnAcc es).contentActive = false
    ∧ (turnAcc (es ++ [Chunk.finish])).streaming = false
    ∧ (turnAcc (es ++ [Chunk.finish])).thinkingActive = false
    ∧ (turnAcc (es ++ [Chunk.finish])).contentActive = false
    ∧ lastContent (turnStore ms u uid aid ts1 ts2 es) = (turnAcc es).accContent
    ∧ lastThinking (turnStore ms u uid aid ts1 ts2 es)
        = (turnAcc es).accThinking := by
  have hne : startTurn ms u uid aid ts1 ts2 ≠ [] :=
    startTurn_ne_nil ms u uid aid ts1 ts2
  have hstore_ne : turnStore ms u uid aid ts1 ts2 es ≠ [] :=
    foldl_updateLast_ne_nil (turnUpdates es) (startTurn ms u uid aid ts1 ts2) hne
  have hc : lastContent (turnStore ms u uid aid ts1 ts2 es)
      = (runChunks initAcc es).1.accContent := by
    have h1 : lastContent (turnStore ms u uid aid ts1 ts2 es)
        = List.foldl cStep (lastContent (startTurn ms u uid aid ts1 ts2))
            (turnUpdates es) :=
      lastContent_foldl (turnUpdates es) (startTurn ms u uid aid ts1 ts2) hne
    rw [h1, lastContent_startTurn]
    exact (foldl_steps_run es initAcc).1
  have ht : lastThinking (turnStore ms u uid aid ts1 ts2 es)
      = (runChunks initAcc es).1.accThinking := by
    have h1 : lastThinking (turnStore ms u uid aid ts1 ts2 es)
        = List.foldl tStep (lastThinking (startTurn ms u uid aid ts1 ts2))
            (turnUpdates es) :=
      lastThinking_foldl (turnUpdates es) (startTurn ms u uid aid ts1 ts2) hne
    rw [h1, lastThinking_startTurn]
    exact (foldl_steps_run es initAcc).2
  have hrun : runChunks initAcc (es ++ [Chunk.finish])
      = ((runChunks (runChunks initAcc es).1 [Chunk.finish]).1,
         (runChunks initAcc es).2
           ++ (runChunks (runChunks initAcc es).1 [Chunk.finish]).2) :=
    runChunks_append es [Chunk.finish] initAcc
  have hfin : runChunks (runChunks initAcc es).1 [Chunk.finish]
      = ((processChunk (runChunks initAcc es).1 Chunk.finish).1,
         (processChunk (runChunks initAcc es).1 Chunk.finish).2) := by
    show (let p := processChunk (runChunks initAcc es).1 Chunk.finish
          let q := runChunks p.1 []
          (q.1, p.2 ++ q.2)) = _
    simp [runChunks]
  refine ⟨?_, ?_, ?_, rfl, rfl, rfl, rfl, rfl, rfl, hc, ht⟩
  · unfold turnStore turnUpdates
    rw [hrun, hfin]
    by_cases hf : (runChunks initAcc es).1.finished
    · have hp : processChunk (runChunks initAcc es).1 Chunk.finish
          = ((runChunks initAcc es).1, []) := by
        simp [processChunk, hf]
      rw [hp]
      simp
    · have hp : processChunk (runChunks initAcc es).1 Chunk.finish
          = ({ (runChunks initAcc es).1 with
                 thinkingActive := false
                 contentActive := false
                 finished := true },
             [finishUpd (runChunks initAcc es).1.accContent
                (runChunks initAcc es).1.accThinking]) := by
        simp [processChunk, hf]
      rw [hp]
      rw [List.foldl_append]
      rw [List.foldl_cons, List.foldl_nil]
      show updateLastMessage (turnStore ms u uid aid ts1 ts2 es) _ = _
      rw [← hc, ← ht]
      exact updateLast_self hstore_ne
  · unfold turnAcc
    rw [hrun, hfin]
    show (processChunk (runChunks initAcc es).1 Chunk.finish).1.accContent = _
    exact (accs_processChunk_finish (runChunks initAcc es).1).1
  · unfold turnAcc
    rw [hrun, hfin]
    show (processChunk (runChunks initAcc es).1 Chunk.finish).1.accThinking = _
    exact (accs_processChunk_finish (runChunks initAcc es).1).2

/-- C1 (amended): for a turn processing exactly one thinking event of
nonempty text `t` that does not begin with a sentence-terminal character,
the writes to the `thinking` field are exactly the per-segment cumulative
reveals followed by the final guard write; the per-segment writes form a
strictly increasing-length chain of prefixes of `t` (one per
punctuation-delimited segment, a single segment when `t` has no terminal
punctuation), and the last write equals `t` exactly, byte for byte.  When
`t` begins with `.`, `!` or `?` the regex drops the leading punctuation run
from the first segment write, which is then not a prefix of `t` (see the
counterexample). -/
theorem claim_C1 (t : String) (h1 : t ≠ "") (h2 : noLeadTerm t = true) :
    (turnUpdates [Chunk.thinking t]).filterMap MsgUpdate.thinking
      = allThinkingWrites t
    ∧ List.Chain' (fun a b => a.length < b.length) (thinkingWrites t)
    ∧ (∀ w ∈ thinkingWrites t, isPre w t)
    ∧ (allThinkingWrites t).getLast? = some t
    ∧ ((∀ c ∈ t.data, isTerm c = false) → sentences t = [t]) := by
  refine ⟨?_, ?_, ?_, ?_, ?_⟩
  · have hp : (processChunk initAcc (Chunk.thinking t)).2
        = ((thinkingWrites t) ++ [t]).map thinkUpd := by
      simp [processChunk, initAcc, h1]
    have hu : turnUpdates [Chunk.thinking t]
        = ((thinkingWrites t) ++ [t]).map thinkUpd := by
      show (processChunk initAcc (Chunk.thinking t)).2
          ++ (runChunks (processChunk initAcc (Chunk.thinking t)).1 []).2 = _
      rw [hp]
      simp [runChunks]
    rw [hu, filterMap_thinking_thinkUpd]
    rfl
  · exact cumWrites_chain_strict (sentences t) (sentences_ne_empty h1) ""
  · intro w hw
    have hchain : List.Chain' isPre ("" :: cumWrites "" (sentences t)) :=
      cumWrites_chain (sentences t) ""
    have hlast := chain'_rel_getLastD isPre_refl isPre_trans
      ("" :: cumWrites "" (sentences t)) "" hchain w (List.mem_cons_of_mem _ hw)
    rw [cumWrites_getLast] at hlast
    simp only [Option.getD_some] at hlast
    exact isPre_trans hlast (sentences_concat_isPre h2)
  · exact List.getLast?_concat (thinkingWrites t)
  · intro hnone
    have hscan : scanStart t.data = [] := by
      cases hd : t.data with
      | nil => rfl
      | cons c cs =>
        have hc : isTerm c = false := hnone c (by rw [hd]; simp)
        show scanStart (c :: cs) = []
        simp only [scanStart, hc, if_false, Bool.false_eq_true]
        exact scanSeg_no_term cs [c] (fun x hx => hnone x (by rw [hd]; simp [hx]))
    unfold sentences
    rw [hscan]
    simp

theorem claim_C1_witness :
    (("A. B" : String) ≠ "" ∧ noLeadTerm "A. B" = true)
    ∧ ((turnUpdates [Chunk.thinking "A. B"]).filterMap MsgUpdate.thinking
        = allThinkingWrites "A. B"
       ∧ List.Chain' (fun a b => a.length < b.length) (thinkingWrites "A. B")
       ∧ (∀ w ∈ thinkingWrites "A. B", isPre w "A. B")
       ∧ (allThinkingWrites "A. B").getLast? = some "A. B"
       ∧ ((∀ c ∈ ("A. B" : String).data, isTerm c = false)
           → sentences "A. B" = ["A. B"])) :=
  ⟨⟨by decide, by decide⟩, claim_C1 "A. B" (by decide) (by decide)⟩

/-- C1 counterexample: for the thinking text `".a."` the single turn's write
sequence to the `thinking` field is `["a.", ".a."]` — the leading terminal
character is dropped from the segmentation — so the first write `"a."` is a
segment write that is not a prefix of the received text `".a."`, refuting the
claim that every write in the chain is a prefix of the text. -/
theorem claim_C1_cex :
    (turnUpdates [Chunk.thinking ".a."]).filterMap MsgUpdate.thinking
      = ["a.", ".a."]
    ∧ ("a." : String) ∈ thinkingWrites ".a."
    ∧ ¬ isPre "a." ".a." := by
  refine ⟨by decide, by decide, ?_⟩
  rintro ⟨r, hr⟩
  have hd : ('.' :: 'a' :: '.' :: ([] : List Char))
      = 'a' :: '.' :: r.data := by
    have h2 := congrArg String.data hr
    rw [data_append] at h2
    exact h2
  injection hd with h3 _
  exact absurd h3 (by decide)

/-- C3 (amended): over a whole turn, the successive values of the last
message's `content` field are monotonically non-decreasing in length and
every intermediate value is a prefix of the final stored content — for all
event sequences; the same holds for the `thinking` field provided the turn
processes at most one thinking event and its text does not begin with a
sentence-terminal character.  (With two thinking events the revealed text
restarts from the second event's first segment, and both monotonicity and
the prefix property fail — see the counterexample.) -/
theorem claim_C3 (ms : List Message) (u uid aid : String) (ts1 ts2 : Nat)
    (es : List Chunk) :
    (List.Chain' (fun a b => a.length ≤ b.length)
      (contentSeq ms u uid aid ts1 ts2 es)
     ∧ (∀ v ∈ contentSeq ms u uid aid ts1 ts2 es,
         isPre v (lastContent (turnStore ms u uid aid ts1 ts2 es))))
    ∧ (es.countP isThinkingChunk ≤ 1 →
       (∀ t, Chunk.thinking t ∈ es → noLeadTerm t = true) →
       List.Chain' (fun a b => a.length ≤ b.length)
         (thinkingSeq ms u uid aid ts1 ts2 es)
       ∧ (∀ v ∈ thinkingSeq ms u uid aid ts1 ts2 es,
           isPre v (lastThinking (turnStore ms u uid aid ts1 ts2 es)))) := by
  have hne := startTurn_ne_nil ms u uid aid ts1 ts2
  have hts : thinkingSeq ms u uid aid ts1 ts2 es
      = List.scanl tStep "" (turnUpdates es) := by
    unfold thinkingSeq turnStates
    rw [map_lastThinking_scanl (turnUpdates es) _ hne, lastThinking_startTurn]
  have hcs : contentSeq ms u uid aid ts1 ts2 es
      = List.scanl cStep "" (turnUpdates es) := by
    unfold contentSeq turnStates
    rw [map_lastContent_scanl (turnUpdates es) _ hne, lastContent_startTurn]
  have hchainC : List.Chain' isPre (List.scanl cStep "" (turnUpdates es)) :=
    chain_cStep_run es initAcc
  have hlastT : lastThinking (turnStore ms u uid aid ts1 ts2 es)
      = List.foldl tStep "" (turnUpdates es) := by
    unfold turnStore
    rw [lastThinking_foldl (turnUpdates es) _ hne, lastThinking_startTurn]
  have hlastC : lastContent (turnStore ms u uid aid ts1 ts2 es)
      = List.foldl cStep "" (turnUpdates es) := by
    unfold turnStore
    rw [lastContent_foldl (turnUpdates es) _ hne, lastContent_startTurn]
  have hglT : (List.scanl tStep "" (turnUpdates es)).getLast?.getD ""
      = List.foldl tStep "" (turnUpdates es) := by
    rw [scanl_getLast?]
    rfl
  have hglC : (List.scanl cStep "" (turnUpdates es)).getLast?.getD ""
      = List.foldl cStep "" (turnUpdates es) := by
    rw [scanl_getLast?]
    rfl
  refine ⟨⟨?_, ?_⟩, ?_⟩
  · rw [hcs]
    exact hchainC.imp (fun a b h => isPre_len_le h)
  · intro v hv
    rw [hcs] at hv
    rw [hlastC, ← hglC]
    exact chain'_rel_getLastD isPre_refl isPre_trans _ "" hchainC v hv
  · intro h1 h2
    have hchainT : List.Chain' isPre (List.scanl tStep "" (turnUpdates es)) :=
      chain_tStep_run es initAcc (Or.inr rfl) h1 h2
    refine ⟨?_, ?_⟩
    · rw [hts]
      exact hchainT.imp (fun a b h => isPre_len_le h)
    · intro v hv
      rw [hts] at hv
      rw [hlastT, ← hglT]
      exact chain'_rel_getLastD isPre_refl isPre_trans _ "" hchainT v hv

theorem claim_C3_witness :
    (([Chunk.thinking "Hi. Yo", Chunk.content "ok"].countP isThinkingChunk ≤ 1)
      ∧ (∀ t, Chunk.thinking t ∈ [Chunk.thinking "Hi. Yo", Chunk.content "ok"]
          → noLeadTerm t = true))
    ∧ ((List.Chain' (fun a b => a.length ≤ b.length)
          (contentSeq [] "q" "u" "a" 0 0
            [Chunk.thinking "Hi. Yo", Chunk.content "ok"])
        ∧ (∀ v ∈ contentSeq [] "q" "u" "a" 0 0
             [Chunk.thinking "Hi. Yo", Chunk.content "ok"],
            isPre v (lastContent (turnStore [] "q" "u" "a" 0 0
              [Chunk.thinking "Hi. Yo", Chunk.content "ok"]))))
       ∧ (List.Chain' (fun a b => a.length ≤ b.length)
            (thinkingSeq [] "q" "u" "a" 0 0
              [Chunk.thinking "Hi. Yo", Chunk.content "ok"])
          ∧ (∀ v ∈ thinkingSeq [] "q" "u" "a" 0 0
               [Chunk.thinking "Hi. Yo", Chunk.content "ok"],
              isPre v (lastThinking (turnStore [] "q" "u" "a" 0 0
                [Chunk.thinking "Hi. Yo", Chunk.content "ok"]))))) :=
  ⟨⟨by decide, by
      intro t ht
      simp at ht
      subst ht
      decide⟩,
   ⟨(claim_C3 [] "q" "u" "a" 0 0
       [Chunk.thinking "Hi. Yo", Chunk.content "ok"]).1,
    (claim_C3 [] "q" "u" "a" 0 0
       [Chunk.thinking "Hi. Yo", Chunk.content "ok"]).2
      (by decide)
      (by
       intro t ht
       simp at ht
       subst ht
       decide)⟩⟩

/-- C3 counterexample: a turn with two thinking events `"AA."` then `"B."`
produces the thinking-field value sequence `["", "AA.", "AA.", "B.", "B."]`,
whose lengths `0,3,3,2,2` are not monotonically non-decreasing (the second
event restarts the reveal), refuting the claim for turns with more than one
thinking event. -/
theorem claim_C3_cex :
    thinkingSeq [] "hi" "u" "a" 0 0 [Chunk.thinking "AA.", Chunk.thinking "B."]
      = ["", "AA.", "AA.", "B.", "B."]
    ∧ ¬ List.Chain' (fun a b => a.length ≤ b.length)
        (["", "AA.", "AA.", "B.", "B."] : List String) := by
  constructor
  · rfl
  · intro hch
    rw [List.chain'_cons, List.chain'_cons, List.chain'_cons] at hch
    exact absurd hch.2.2.1 (by decide)

end RagChat
